import Mathlib

/-!
# Verification of the gcg balanced-context selector and currency engine

Shallow embedding of `src/gcg/currency.py` (the `CurrencyConverter` price
lookup / conversion engine) and of `_select_balanced_splits` /
`_find_balancing_subset` from `src/gcg/cli.py`.

Modelling conventions:
- Python `Decimal` values are modelled as exact rationals (`ℚ`); the source
  uses `Decimal` precisely to get exact monetary arithmetic.
- Dates are modelled as integers (day numbers); `date` subtraction by
  `timedelta(days=n)` becomes integer subtraction, and the SQL comparisons
  `date(p.date) <= ?` / `>= ?` on ISO strings are order-isomorphic to the
  integer comparisons.
- The sqlite price table is modelled as a list of `Quote` rows; the SQL
  query `WHERE mnemonic pair matches AND date in window ORDER BY date DESC
  LIMIT 1` becomes a filter followed by a maximum-date fold.
- The mutable per-instance price cache (a Python dict) is threaded
  explicitly: stateful methods take and return a `Cache`.  The dict is an
  association list where insertion prepends; lookup takes the most recent
  binding, which is observationally the dict behaviour.
-/

/-- Row of the GnuCash `prices` table joined with the two commodity
mnemonics: a quote of `num/denom` units of `currency` per unit of
`commodity`, valid as of day `qdate`. -/
structure Quote where
  commodity : String
  currency : String
  qdate : Int
  num : Int
  denom : Int
deriving DecidableEq

/-- State of a `CurrencyConverter` instance from `src/gcg/currency.py`:
the constructor stores its three arguments unchanged (the sqlite file is
modelled by the list of price rows it contains).  The constructor performs
no validation of any argument. -/
structure CurrencyConverter where
  base_currency : String
  lookback_days : Int
  prices : List Quote
deriving DecidableEq

/-- Model of `CurrencyConverter.__init__`: stores the configuration
unchanged, with no validation (the Python constructor has no checks). -/
def CurrencyConverter.init
    (base_currency : String) (lookback_days : Int) (prices : List Quote) :
    CurrencyConverter :=
  { base_currency := base_currency
    lookback_days := lookback_days
    prices := prices }

/-- Result record of `CurrencyConverter.convert`. -/
structure ConversionResult where
  amount : ℚ
  currency : String
  original_amount : ℚ
  original_currency : String
  fx_rate : Option ℚ
  converted : Bool
deriving DecidableEq

/-- Key of the in-memory price cache: (from_currency, to_currency, date). -/
abbrev PriceKey := String × String × Int

/-- The `_price_cache` dict: keys map to `some rate` or to the cached
failure `none` (Python's cached `None`). -/
abbrev Cache := List (PriceKey × Option ℚ)

/-- Dict lookup: `none` means the key is absent, `some v` means the key is
present with value `v` (where `v = none` is a cached failure). -/
def cacheFind (cache : Cache) (k : PriceKey) : Option (Option ℚ) :=
  match cache with
  | [] => none
  | (k', v) :: rest => if k' = k then some v else cacheFind rest k

/-- Dict insertion `cache[k] = v`, modelled by prepending; `cacheFind`
returns the most recent binding, matching dict overwrite semantics. -/
def cacheInsert (cache : Cache) (k : PriceKey) (v : Option ℚ) : Cache :=
  (k, v) :: cache

/-- The SQL `WHERE` clause of `_lookup_price`: the row joins to the pair
(fc, tc) and its date lies in the window [earliest, onDate]. -/
def quoteMatches (fc tc : String) (onDate earliest : Int) (q : Quote) : Bool :=
  q.commodity == fc && q.currency == tc &&
    decide (q.qdate ≤ onDate) && decide (earliest ≤ q.qdate)

/-- The SQL query of `_lookup_price`: filter the price table by pair and
date window, then `ORDER BY date DESC LIMIT 1` (take a row of maximal
date; on equal dates the first row in table order is kept, a deterministic
stable choice). -/
def bestQuote (db : List Quote) (fc tc : String) (onDate earliest : Int) :
    Option Quote :=
  (db.filter (quoteMatches fc tc onDate earliest)).foldl
    (fun acc q =>
      match acc with
      | none => some q
      | some b => if b.qdate < q.qdate then some q else acc)
    none

/-- Model of `CurrencyConverter._lookup_price`: try the direct pair, then
the inverse pair (returning the reciprocal of the inverse quote), over the
window `[onDate - lookback_days, onDate]`. -/
def _lookup_price (conv : CurrencyConverter) (fc tc : String) (onDate : Int) :
    Option ℚ :=
  let earliest := onDate - conv.lookback_days
  match bestQuote conv.prices fc tc onDate earliest with
  | some q => some ((q.num : ℚ) / (q.denom : ℚ))
  | none =>
    match bestQuote conv.prices tc fc onDate earliest with
    | some q => some (1 / ((q.num : ℚ) / (q.denom : ℚ)))
    | none => none

/-- Model of `CurrencyConverter.get_price`: identity pair short-circuits to
rate 1; then forward cache hit; then a non-null reverse cache hit is
inverted and stored under the forward key; otherwise the database is
queried and the result (success or failure) is stored under the forward
key only. -/
def get_price (conv : CurrencyConverter) (cache : Cache)
    (fc tc : String) (onDate : Int) : Option ℚ × Cache :=
  if fc = tc then (some 1, cache)
  else
    match cacheFind cache (fc, tc, onDate) with
    | some v => (v, cache)
    | none =>
      match cacheFind cache (tc, fc, onDate) with
      | some (some reverse_rate) =>
        let rate := 1 / reverse_rate
        (some rate, cacheInsert cache (fc, tc, onDate) (some rate))
      | _ =>
        let rate := _lookup_price conv fc tc onDate
        (rate, cacheInsert cache (fc, tc, onDate) rate)

/-- Model of `CurrencyConverter.convert`: identity pair returns the amount
unchanged with rate 1 and `converted = false`; a failed lookup returns the
original amount in the original currency with no rate; a successful lookup
multiplies by the rate. -/
def convert (conv : CurrencyConverter) (cache : Cache) (amount : ℚ)
    (fc tc : String) (onDate : Int) : ConversionResult × Cache :=
  if fc = tc then
    (⟨amount, tc, amount, fc, some 1, false⟩, cache)
  else
    match get_price conv cache fc tc onDate with
    | (none, cache') => (⟨amount, fc, amount, fc, none, false⟩, cache')
    | (some rate, cache') =>
      (⟨amount * rate, tc, amount, fc, some rate, true⟩, cache')

unseal Rat.add Rat.mul Rat.inv Rat.sub Rat.ofScientific

/-- C4: identity conversion returns the amount unchanged, in the same
currency, with rate exactly 1 and the `converted` flag false. -/
theorem claim_C4_identity_conversion
    (conv : CurrencyConverter) (cache : Cache) (x : ℚ) (C : String)
    (d : Int) :
    (convert conv cache x C C d).1 =
      ⟨x, C, x, C, some (1 : ℚ), false⟩ := by
  simp [convert]

/-- C5: when the currencies differ and the price-lookup protocol yields no
rate, `convert` returns the original amount in the original currency with
no rate and `converted = false`; the fallback is a total function, never an
error. -/
theorem claim_C5_missing_rate_fallback
    (conv : CurrencyConverter) (cache : Cache) (x : ℚ) (fc tc : String)
    (d : Int) (hne : fc ≠ tc)
    (hnorate : (get_price conv cache fc tc d).1 = none) :
    (convert conv cache x fc tc d).1 = ⟨x, fc, x, fc, none, false⟩ := by
  unfold convert
  rw [if_neg hne]
  rcases hgp : get_price conv cache fc tc d with ⟨r, ch⟩
  rw [hgp] at hnorate
  simp only at hnorate
  subst hnorate
  simp

/-- Witness for C5 at a concrete input: distinct currencies, empty price
database, empty cache. -/
theorem claim_C5_missing_rate_fallback_witness :
    ("GBP" : String) ≠ "EUR" ∧
    (get_price (CurrencyConverter.init "EUR" 30 []) [] "GBP" "EUR" 0).1
      = none ∧
    (convert (CurrencyConverter.init "EUR" 30 []) [] 100 "GBP" "EUR" 0).1
      = ⟨100, "GBP", 100, "GBP", none, false⟩ :=
  ⟨by decide, by decide,
    claim_C5_missing_rate_fallback
      (CurrencyConverter.init "EUR" 30 []) [] 100 "GBP" "EUR" 0
      (by decide) (by decide)⟩

/-- C6: with a direct quote for (A, B) on date D cached as rate `r` and the
forward key (B, A, D) not cached, `get_price B A D` returns exactly the
exact reciprocal `1/r` and stores it under the forward key (B, A, D). -/
theorem claim_C6_reciprocal_consistency
    (conv : CurrencyConverter) (cache : Cache) (A B : String) (D : Int)
    (r : ℚ) (hAB : B ≠ A) (_hr : r ≠ 0)
    (hfwd : cacheFind cache (B, A, D) = none)
    (hrev : cacheFind cache (A, B, D) = some (some r)) :
    get_price conv cache B A D =
      (some (1 / r), cacheInsert cache (B, A, D) (some (1 / r))) ∧
    cacheFind (get_price conv cache B A D).2 (B, A, D) =
      some (some (1 / r)) := by
  have hmain : get_price conv cache B A D =
      (some (1 / r), cacheInsert cache (B, A, D) (some (1 / r))) := by
    unfold get_price
    rw [if_neg hAB, hfwd, hrev]
  refine ⟨hmain, ?_⟩
  rw [hmain]
  simp [cacheFind, cacheInsert]

/-- Witness for C6 at a concrete input: GBP→EUR quote 117/100 cached from a
previous lookup, forward key EUR→GBP uncached. -/
theorem claim_C6_reciprocal_consistency_witness :
    ("EUR" : String) ≠ "GBP" ∧ ((117 : ℚ) / 100) ≠ 0 ∧
    cacheFind [(("GBP", "EUR", 0), some ((117 : ℚ) / 100))]
      ("EUR", "GBP", 0) = none ∧
    cacheFind [(("GBP", "EUR", 0), some ((117 : ℚ) / 100))]
      ("GBP", "EUR", 0) = some (some ((117 : ℚ) / 100)) ∧
    (get_price (CurrencyConverter.init "EUR" 30 [])
        [(("GBP", "EUR", 0), some ((117 : ℚ) / 100))] "EUR" "GBP" 0 =
      (some (1 / ((117 : ℚ) / 100)),
        cacheInsert [(("GBP", "EUR", 0), some ((117 : ℚ) / 100))]
          ("EUR", "GBP", 0) (some (1 / ((117 : ℚ) / 100)))) ∧
     cacheFind (get_price (CurrencyConverter.init "EUR" 30 [])
        [(("GBP", "EUR", 0), some ((117 : ℚ) / 100))] "EUR" "GBP" 0).2
        ("EUR", "GBP", 0) = some (some (1 / ((117 : ℚ) / 100)))) :=
  ⟨by decide, by decide, by decide, by decide,
    claim_C6_reciprocal_consistency
      (CurrencyConverter.init "EUR" 30 [])
      [(("GBP", "EUR", 0), some ((117 : ℚ) / 100))]
      "GBP" "EUR" 0 ((117 : ℚ) / 100)
      (by decide) (by decide) (by decide) (by decide)⟩

/-- Helper: when the reference date precedes the earliest allowed date the
window is empty and no quote can match. -/
theorem bestQuote_eq_none_of_empty_window (db : List Quote) (a b : String)
    (onDate earliest : Int) (h : onDate < earliest) :
    bestQuote db a b onDate earliest = none := by
  unfold bestQuote
  have hfil : db.filter (quoteMatches a b onDate earliest) = [] := by
    apply List.filter_eq_nil_iff.mpr
    intro q _hq
    unfold quoteMatches
    simp only [Bool.and_eq_true, decide_eq_true_eq, beq_iff_eq, not_and]
    intro h1 h2
    have h3 := h1.2
    omega
  rw [hfil]
  rfl

/-- C7: the lookback window is inclusive at its lower bound.  With the only
available quote for the pair dated exactly `d - L`, `_lookup_price` finds
it; with the only quote dated `d - L - 1`, the lookup fails in both the
direct and the inverse direction. -/
theorem claim_C7_lookback_boundary
    (base fc tc : String) (d L num denom : Int) (hL : 0 ≤ L) :
    _lookup_price ⟨base, L, [⟨fc, tc, d - L, num, denom⟩]⟩ fc tc d
      = some ((num : ℚ) / (denom : ℚ)) ∧
    _lookup_price ⟨base, L, [⟨fc, tc, d - L - 1, num, denom⟩]⟩ fc tc d
      = none := by
  constructor
  · have hmatch : quoteMatches fc tc d (d - L) ⟨fc, tc, d - L, num, denom⟩
        = true := by
      simp only [quoteMatches, beq_self_eq_true, Bool.true_and,
        Bool.and_eq_true, decide_eq_true_eq]
      omega
    simp [_lookup_price, bestQuote, List.filter_cons, hmatch]
  · have hdate : decide (d - L ≤ d - L - 1) = false := by
      simp only [decide_eq_false_iff_not]
      omega
    have hmatch : ∀ a b : String,
        quoteMatches a b d (d - L) ⟨fc, tc, d - L - 1, num, denom⟩
          = false := by
      intro a b
      simp [quoteMatches, hdate]
    simp [_lookup_price, bestQuote, List.filter_cons, hmatch]

/-- Witness for C7 at the spec's concrete example: lookback 30, a quote
dated exactly 30 days before the reference date is found, one dated 31
days before is not. -/
theorem claim_C7_lookback_boundary_witness :
    ((0 : Int) ≤ 30) ∧
    (_lookup_price ⟨"EUR", 30, [⟨"GBP", "EUR", 100 - 30, 117, 100⟩]⟩
        "GBP" "EUR" 100 = some ((117 : ℚ) / (100 : ℚ)) ∧
     _lookup_price ⟨"EUR", 30, [⟨"GBP", "EUR", 100 - 30 - 1, 117, 100⟩]⟩
        "GBP" "EUR" 100 = none) :=
  ⟨by decide,
   claim_C7_lookback_boundary "EUR" "GBP" "EUR" 100 30 117 100 (by decide)⟩

/-- C8 counterexample: with an empty price database and empty cache, a
failed lookup for (GBP, EUR) caches the failure under the forward key
only; the reverse key (EUR, GBP) is absent from the cache, contradicting
the claim that both attempted directions are cached. -/
theorem claim_C8_counterexample :
    (get_price (CurrencyConverter.init "EUR" 30 []) [] "GBP" "EUR" 0).1
      = none ∧
    cacheFind
      (get_price (CurrencyConverter.init "EUR" 30 []) [] "GBP" "EUR" 0).2
      ("GBP", "EUR", 0) = some none ∧
    cacheFind
      (get_price (CurrencyConverter.init "EUR" 30 []) [] "GBP" "EUR" 0).2
      ("EUR", "GBP", 0) = none ∧
    ¬ (cacheFind
        (get_price (CurrencyConverter.init "EUR" 30 []) [] "GBP" "EUR" 0).2
        ("EUR", "GBP", 0) = some none) := by
  decide

/-- C8 amended: when neither direction yields a quote, `get_price` caches
the failure under the forward key (A, B, D) only; the reverse key
(B, A, D) remains absent from the cache. -/
theorem claim_C8_amended_forward_only_caching
    (conv : CurrencyConverter) (cache : Cache) (A B : String) (D : Int)
    (hAB : A ≠ B)
    (hfwd : cacheFind cache (A, B, D) = none)
    (hrev : cacheFind cache (B, A, D) = none)
    (hdb : _lookup_price conv A B D = none) :
    get_price conv cache A B D = (none, cacheInsert cache (A, B, D) none) ∧
    cacheFind (get_price conv cache A B D).2 (A, B, D) = some none ∧
    cacheFind (get_price conv cache A B D).2 (B, A, D) = none := by
  have hk : ((A, B, D) : PriceKey) ≠ (B, A, D) :=
    fun h => hAB (congrArg Prod.fst h)
  have hmain : get_price conv cache A B D
      = (none, cacheInsert cache (A, B, D) none) := by
    unfold get_price
    rw [if_neg hAB, hfwd, hrev, hdb]
  refine ⟨hmain, ?_, ?_⟩
  · rw [hmain]
    simp [cacheFind, cacheInsert]
  · rw [hmain]
    simp only [cacheFind, cacheInsert, if_neg hk]
    exact hrev

/-- Witness for C8 amended at a concrete input: empty database, empty
cache, distinct currencies. -/
theorem claim_C8_amended_forward_only_caching_witness :
    (("GBP" : String) ≠ "EUR") ∧
    cacheFind ([] : Cache) ("GBP", "EUR", 0) = none ∧
    cacheFind ([] : Cache) ("EUR", "GBP", 0) = none ∧
    _lookup_price (CurrencyConverter.init "EUR" 30 []) "GBP" "EUR" 0
      = none ∧
    (get_price (CurrencyConverter.init "EUR" 30 []) [] "GBP" "EUR" 0
        = (none, cacheInsert [] ("GBP", "EUR", 0) none) ∧
     cacheFind
       (get_price (CurrencyConverter.init "EUR" 30 []) [] "GBP" "EUR" 0).2
       ("GBP", "EUR", 0) = some none ∧
     cacheFind
       (get_price (CurrencyConverter.init "EUR" 30 []) [] "GBP" "EUR" 0).2
       ("EUR", "GBP", 0) = none) :=
  ⟨by decide, by decide, by decide, by decide,
   claim_C8_amended_forward_only_caching
     (CurrencyConverter.init "EUR" 30 []) [] "GBP" "EUR" 0
     (by decide) (by decide) (by decide) (by decide)⟩

/-- C9 counterexample: constructing the converter with a negative lookback
window succeeds and stores the malformed value unchanged; a lookup then
silently returns "no quote found" even though a quote dated exactly on the
reference date exists — there is no fail-fast validation error. -/
theorem claim_C9_counterexample :
    (CurrencyConverter.init "EUR" (-1)
      [⟨"GBP", "EUR", 0, 117, 100⟩]).lookback_days = -1 ∧
    (get_price
      (CurrencyConverter.init "EUR" (-1) [⟨"GBP", "EUR", 0, 117, 100⟩])
      [] "GBP" "EUR" 0).1 = none := by
  decide

/-- C9 amended: the constructor performs no validation of its
configuration; a negative `lookback_days` is accepted and stored
unchanged, and it makes the lookup window empty so every price lookup
silently returns no rate instead of failing fast. -/
theorem claim_C9_amended_no_validation
    (base : String) (L : Int) (prices : List Quote) (hL : L < 0) :
    (CurrencyConverter.init base L prices).lookback_days = L ∧
    ∀ fc tc : String, ∀ d : Int,
      _lookup_price (CurrencyConverter.init base L prices) fc tc d
        = none := by
  refine ⟨rfl, ?_⟩
  intro fc tc d
  have h1 : bestQuote prices fc tc d (d - L) = none :=
    bestQuote_eq_none_of_empty_window _ _ _ _ _ (by omega)
  have h2 : bestQuote prices tc fc d (d - L) = none :=
    bestQuote_eq_none_of_empty_window _ _ _ _ _ (by omega)
  simp [_lookup_price, CurrencyConverter.init, h1, h2]

/-- Witness for C9 amended at a concrete input: lookback −1, a same-day
quote in the database, lookup silently finds nothing. -/
theorem claim_C9_amended_no_validation_witness :
    ((-1 : Int) < 0) ∧
    (CurrencyConverter.init "EUR" (-1)
      [⟨"GBP", "EUR", 0, 117, 100⟩]).lookback_days = -1 ∧
    _lookup_price
      (CurrencyConverter.init "EUR" (-1) [⟨"GBP", "EUR", 0, 117, 100⟩])
      "GBP" "EUR" 0 = none :=
  ⟨by decide,
   (claim_C9_amended_no_validation "EUR" (-1)
     [⟨"GBP", "EUR", 0, 117, 100⟩] (by decide)).1,
   (claim_C9_amended_no_validation "EUR" (-1)
     [⟨"GBP", "EUR", 0, 117, 100⟩] (by decide)).2 "GBP" "EUR" 0⟩

/-- A transaction posting ("split") as consumed by `_select_balanced_splits`
in `src/gcg/cli.py`: the stable identifier `guid`, the signed decimal value
`Decimal(str(s.value))`, and the display currency
`s.account.commodity.mnemonic if s.account.commodity else ""` flattened
into a field. -/
structure Split where
  guid : String
  value : ℚ
  currency : String
deriving DecidableEq

/-- Python's `abs` on exact decimals. -/
def absQ (q : ℚ) : ℚ := if q < 0 then -q else q

/-- The sort key comparison of `remaining.sort(key=lambda s:
(-abs(Decimal(str(s.value))), s.guid))`: ascending in the tuple
`(-abs(value), guid)`, i.e. absolute value descending, then guid
ascending. -/
def remainLeB (a b : Split) : Bool :=
  decide (absQ b.value < absQ a.value) ||
    (decide (absQ a.value = absQ b.value) && decide (a.guid ≤ b.guid))

/-- Stable insertion used to model Python's stable `list.sort`: `s` is
placed before the first element it compares less-or-equal to, so elements
with equal keys keep their original relative order. -/
def insertSplit (s : Split) : List Split → List Split
  | [] => [s]
  | t :: rest =>
    if remainLeB s t then s :: t :: rest else t :: insertSplit s rest

/-- Model of `remaining.sort(...)`: a stable ascending sort by the
`(-abs(value), guid)` key, as an insertion sort (observationally equal to
any stable sort by the same key). -/
def sortRemaining : List Split → List Split
  | [] => []
  | s :: rest => insertSplit s (sortRemaining rest)

/-- Exact-decimal sum of the signed values of a list of splits. -/
def sumValues (l : List Split) : ℚ := (l.map Split.value).sum

/-- Sum of the signed values of the splits of currency `c` in `l`; this is
the per-currency running balance `balance_by_currency` of the source. -/
def sumC (l : List Split) (c : String) : ℚ :=
  sumValues (l.filter (fun s => s.currency == c))

/-- The recursive `backtrack(start, remaining, total)` search of
`_find_balancing_subset`, carried over the candidate pool: for each
candidate try including it first (advancing past it with one fewer slot),
then try the combinations that skip it.  The index-range bound
`split_count - remaining + 1` of the source is pure pruning (branches with
too few remaining candidates all fail); the list recursion reaches the
same verdict through the `[]`-with-slots-left case, returning the same
first success in lexicographic index order. -/
def backtrack (target : ℚ) : List Split → Nat → ℚ → Option (List Split)
  | _, 0, total => if total = target then some [] else none
  | [], _ + 1, _ => none
  | s :: rest, r + 1, total =>
    match backtrack target rest r (total + s.value) with
    | some found => some (s :: found)
    | none => backtrack target rest (r + 1) total

/-- The `for size in range(1, split_count + 1)` loop of
`_find_balancing_subset`: sizes are tried in increasing order and the
first success wins; `trySizesUpTo target pool n` tries sizes `1..n`. -/
def trySizesUpTo (target : ℚ) (pool : List Split) : Nat → Option (List Split)
  | 0 => none
  | k + 1 =>
    match trySizesUpTo target pool k with
    | some found => some found
    | none => backtrack target pool (k + 1) 0

/-- Model of `_find_balancing_subset(splits, target)` from
`src/gcg/cli.py`: the smallest-size combination of pool elements whose
values sum exactly to `target`, sizes tried from 1 up to the pool length,
first hit in lexicographic index order. -/
def _find_balancing_subset (pool : List Split) (target : ℚ) :
    Option (List Split) :=
  trySizesUpTo target pool pool.length

/-- One step of Python dict key insertion: append the currency if it is
not yet present. -/
def addCurrency (acc : List String) (c : String) : List String :=
  if c ∈ acc then acc else acc ++ [c]

/-- The keys of `balance_by_currency` in insertion order: the currencies
of the selected splits in order of first occurrence. -/
def currenciesOf (l : List Split) : List String :=
  l.foldl (fun acc s => addCurrency acc s.currency) []

/-- The `selected` list of `_select_balanced_splits`: all splits whose
guid is among the matching guids, in transaction order. -/
def selectedOf (all_splits : List Split) (matching : List String) :
    List Split :=
  all_splits.filter (fun s => matching.contains s.guid)

/-- The `remaining` list of `_select_balanced_splits`: the non-matching
splits, sorted by absolute value descending then guid ascending. -/
def remainingOf (all_splits : List Split) (matching : List String) :
    List Split :=
  sortRemaining (all_splits.filter (fun s => !(matching.contains s.guid)))

/-- The per-currency candidate pool `remaining_by_currency[currency]`. -/
def poolOf (all_splits : List Split) (matching : List String) (c : String) :
    List Split :=
  (remainingOf all_splits matching).filter (fun s => s.currency == c)

/-- The per-currency subset-sum target `-balance`. -/
def targetOf (all_splits : List Split) (matching : List String) (c : String) :
    ℚ :=
  -(sumC (selectedOf all_splits matching) c)

/-- The warning printed to stderr when a currency cannot be balanced. -/
def warningMsg (c : String) : String :=
  "Warning: Transaction not perfectly balanced in " ++ c ++
    ", showing full context"

/-- The `for currency, balance in balance_by_currency.items()` loop of
`_select_balanced_splits`: zero balances are skipped; a failed subset
search aborts with the failing currency (the source prints the warning and
returns early); successful subsets accumulate in currency order. -/
def balanceLoop (selected remaining : List Split) :
    List String → Except String (List Split)
  | [] => Except.ok []
  | c :: cs =>
    if sumC selected c = 0 then balanceLoop selected remaining cs
    else
      match _find_balancing_subset
          (remaining.filter (fun s => s.currency == c))
          (-(sumC selected c)) with
      | none => Except.error c
      | some subset =>
        (balanceLoop selected remaining cs).map (fun rest => subset ++ rest)

/-- Model of `_select_balanced_splits(all_splits, matching_guids, signed)`
from `src/gcg/cli.py`.  Returns the selected splits plus the out-of-band
warning (`none` when balancing succeeded; the source prints the warning to
stderr and returns `all_splits` unchanged).  The `signed` flag is accepted
and ignored, exactly as in the source, whose body never reads it. -/
def _select_balanced_splits (all_splits : List Split)
    (matching_guids : List String) (signed : Bool) :
    List Split × Option String :=
  let selected := selectedOf all_splits matching_guids
  let remaining := remainingOf all_splits matching_guids
  match balanceLoop selected remaining (currenciesOf selected) with
  | Except.error c => (all_splits, some (warningMsg c))
  | Except.ok extras => (selected ++ extras, none)

example :
    (_select_balanced_splits
      [⟨"a", (7825 : ℚ) / 100, "EUR"⟩, ⟨"b", -((7825 : ℚ) / 100), "EUR"⟩]
      ["a"] true).2 = none := by decide

example :
    (_select_balanced_splits
      [⟨"a", (7825 : ℚ) / 100, "EUR"⟩, ⟨"b", -((7825 : ℚ) / 100), "EUR"⟩]
      ["a"] true).1 =
    [⟨"a", (7825 : ℚ) / 100, "EUR"⟩, ⟨"b", -((7825 : ℚ) / 100), "EUR"⟩] := by
  decide

example :
    _find_balancing_subset
      [⟨"r1", -60, "EUR"⟩, ⟨"r2", -40, "EUR"⟩, ⟨"r3", -30, "EUR"⟩]
      (-100) = some [⟨"r1", -60, "EUR"⟩, ⟨"r2", -40, "EUR"⟩] := by decide

example :
    (_select_balanced_splits
      [⟨"m", 100, "EUR"⟩, ⟨"x", -33, "EUR"⟩, ⟨"y", -20, "EUR"⟩]
      ["m"] false).1 =
    [⟨"m", 100, "EUR"⟩, ⟨"x", -33, "EUR"⟩, ⟨"y", -20, "EUR"⟩] := by decide

/-- C10: the `signed` flag has no effect on the selection: the body of
`_select_balanced_splits` never reads it, so the results for `signed =
true` and `signed = false` are identical. -/
theorem claim_C10_signed_flag_no_effect
    (all_splits : List Split) (matching_guids : List String) :
    _select_balanced_splits all_splits matching_guids true
      = _select_balanced_splits all_splits matching_guids false := rfl

/-- Modelled from the spec: the enumeration, in lexicographic index order,
of all size-`r` combinations of the candidate pool (combinations that use
earlier candidates come first).  This is the specification device against
which the backtracking search is compared; it is not part of the source. -/
def combosLex : List Split → Nat → List (List Split)
  | _, 0 => [[]]
  | [], _ + 1 => []
  | s :: rest, r + 1 =>
    ((combosLex rest r).map (fun t => s :: t)) ++ combosLex rest (r + 1)

/-- The backtracking search returns exactly the first size-`r` combination,
in lexicographic index order, whose values (added to the running total)
reach the target. -/
theorem backtrack_eq_findFirst (target : ℚ) (pool : List Split) :
    ∀ (r : Nat) (total : ℚ),
      backtrack target pool r total
        = (combosLex pool r).find?
            (fun t => decide (total + sumValues t = target)) := by
  induction pool with
  | nil =>
    intro r total
    cases r with
    | zero =>
      by_cases h : total = target <;>
        simp [backtrack, combosLex, List.find?, sumValues, h]
    | succ r => simp [backtrack, combosLex, List.find?]
  | cons s rest ih =>
    intro r total
    cases r with
    | zero =>
      by_cases h : total = target <;>
        simp [backtrack, combosLex, List.find?, sumValues, h]
    | succ r =>
      have hcombos : combosLex (s :: rest) (r + 1)
          = ((combosLex rest r).map (fun t => s :: t))
            ++ combosLex rest (r + 1) := rfl
      have hp : ∀ t : List Split,
          (decide (total + sumValues (s :: t) = target))
            = (decide ((total + s.value) + sumValues t = target)) := by
        intro t
        have : total + sumValues (s :: t)
            = (total + s.value) + sumValues t := by
          simp [sumValues, add_assoc]
        rw [this]
      rw [hcombos, List.find?_append, List.find?_map]
      have hcomp : ((fun t => decide (total + sumValues t = target))
            ∘ (fun t => s :: t))
          = (fun t => decide ((total + s.value) + sumValues t = target)) := by
        funext t
        exact hp t
      rw [hcomp, ← ih r (total + s.value), ← ih (r + 1) total]
      show (match backtrack target rest r (total + s.value) with
        | some found => some (s :: found)
        | none => backtrack target rest (r + 1) total) = _
      cases backtrack target rest r (total + s.value) with
      | some found => simp
      | none => simp

/-- Membership in the lexicographic enumeration is exactly being a
subsequence of the pool of the given length. -/
theorem mem_combosLex :
    ∀ (pool : List Split) (r : Nat) (t : List Split),
      t ∈ combosLex pool r ↔ t.Sublist pool ∧ t.length = r := by
  intro pool
  induction pool with
  | nil =>
    intro r t
    cases r with
    | zero =>
      simp only [combosLex, List.mem_singleton]
      constructor
      · rintro rfl; exact ⟨List.Sublist.refl [], rfl⟩
      · rintro ⟨hsub, hlen⟩
        exact List.eq_nil_of_length_eq_zero hlen
    | succ r =>
      simp only [combosLex, List.not_mem_nil, false_iff, not_and]
      intro hsub
      rw [List.sublist_nil.mp hsub]
      simp
  | cons s rest ih =>
    intro r t
    cases r with
    | zero =>
      simp only [combosLex, List.mem_singleton]
      constructor
      · rintro rfl; exact ⟨List.nil_sublist _, rfl⟩
      · rintro ⟨hsub, hlen⟩
        exact List.eq_nil_of_length_eq_zero hlen
    | succ r =>
      simp only [combosLex, List.mem_append, List.mem_map]
      constructor
      · rintro (⟨t', ht', rfl⟩ | h)
        · rw [ih] at ht'
          exact ⟨List.Sublist.cons₂ s ht'.1, by simp [ht'.2]⟩
        · rw [ih] at h
          exact ⟨List.Sublist.cons s h.1, h.2⟩
      · rintro ⟨hsub, hlen⟩
        cases hsub with
        | cons _ h =>
          right
          rw [ih]
          exact ⟨h, hlen⟩
        | cons₂ _ h =>
          left
          rename_i t'
          exact ⟨t', (ih r t').mpr ⟨h, by simpa using hlen⟩, rfl⟩

/-- If trying sizes `1..n` found nothing, every individual size in that
range found nothing. -/
theorem trySizesUpTo_eq_none (target : ℚ) (pool : List Split) :
    ∀ n, trySizesUpTo target pool n = none →
      ∀ j, 1 ≤ j → j ≤ n → backtrack target pool j 0 = none := by
  intro n
  induction n with
  | zero => intro _ j h1 h2; omega
  | succ n ih =>
    intro h j h1 h2
    unfold trySizesUpTo at h
    cases htn : trySizesUpTo target pool n with
    | some found => rw [htn] at h; simp at h
    | none =>
      rw [htn] at h
      rcases Nat.lt_or_ge j (n + 1) with hlt | hge
      · exact ih htn j h1 (by omega)
      · have : j = n + 1 := by omega
        rw [this]
        exact h

/-- A successful size sweep identifies the first (smallest) size at which
the backtracking search succeeds, with all smaller sizes failing. -/
theorem trySizesUpTo_eq_some (target : ℚ) (pool : List Split) :
    ∀ n out, trySizesUpTo target pool n = some out →
      ∃ k, 1 ≤ k ∧ k ≤ n ∧ backtrack target pool k 0 = some out ∧
        ∀ j, 1 ≤ j → j < k → backtrack target pool j 0 = none := by
  intro n
  induction n with
  | zero => intro out h; simp [trySizesUpTo] at h
  | succ n ih =>
    intro out h
    unfold trySizesUpTo at h
    cases htn : trySizesUpTo target pool n with
    | some found =>
      rw [htn] at h
      simp only [Option.some.injEq] at h
      subst h
      obtain ⟨k, h1, h2, h3, h4⟩ := ih found htn
      exact ⟨k, h1, by omega, h3, h4⟩
    | none =>
      rw [htn] at h
      refine ⟨n + 1, by omega, Nat.le_refl _, h, ?_⟩
      intro j hj1 hj2
      exact trySizesUpTo_eq_none target pool n htn j hj1 (by omega)

/-- Soundness of the subset search: a returned subset is a subsequence of
the pool, sums exactly to the target, and is nonempty. -/
theorem find_balancing_sound (pool : List Split) (target : ℚ)
    (out : List Split)
    (h : _find_balancing_subset pool target = some out) :
    out.Sublist pool ∧ sumValues out = target ∧ 1 ≤ out.length := by
  obtain ⟨k, hk1, _, h3, _⟩ :=
    trySizesUpTo_eq_some target pool pool.length out h
  rw [backtrack_eq_findFirst] at h3
  have hmem := List.mem_of_find?_eq_some h3
  have hpred := List.find?_some h3
  rw [mem_combosLex] at hmem
  simp only [decide_eq_true_eq, zero_add] at hpred
  refine ⟨hmem.1, hpred, ?_⟩
  omega

/-- Completeness of the subset search: if some nonempty subsequence of the
pool sums to the target, the search cannot fail. -/
theorem find_balancing_complete (pool : List Split) (target : ℚ)
    (t : List Split) (hsub : t.Sublist pool) (hne : t ≠ [])
    (hsum : sumValues t = target) :
    _find_balancing_subset pool target ≠ none := by
  intro hnone
  have hlen1 : 1 ≤ t.length := by
    cases t with
    | nil => exact absurd rfl hne
    | cons a l => simp
  have hlenle : t.length ≤ pool.length := hsub.length_le
  have hbt := trySizesUpTo_eq_none target pool pool.length hnone
    t.length hlen1 hlenle
  rw [backtrack_eq_findFirst] at hbt
  have hall := List.find?_eq_none.mp hbt
  have hmem : t ∈ combosLex pool t.length :=
    (mem_combosLex pool t.length t).mpr ⟨hsub, rfl⟩
  have := hall t hmem
  simp [hsum] at this

/-- Python's `abs` on exact decimals agrees with the mathematical absolute
value. -/
theorem absQ_eq_abs (q : ℚ) : absQ q = |q| := by
  unfold absQ
  by_cases h : q < 0
  · rw [if_pos h, abs_of_neg h]
  · rw [if_neg h, abs_of_nonneg (le_of_not_lt h)]

/-- The sort-key comparison is total. -/
theorem remainLeB_total (a b : Split) :
    remainLeB a b = true ∨ remainLeB b a = true := by
  unfold remainLeB
  simp only [Bool.or_eq_true, Bool.and_eq_true, decide_eq_true_eq]
  rcases lt_trichotomy (absQ a.value) (absQ b.value) with h | h | h
  · right; left; exact h
  · rcases le_total a.guid b.guid with hg | hg
    · left; right; exact ⟨h, hg⟩
    · right; right; exact ⟨h.symm, hg⟩
  · left; left; exact h

/-- The sort-key comparison is transitive. -/
theorem remainLeB_trans {a b c : Split} (h1 : remainLeB a b = true)
    (h2 : remainLeB b c = true) : remainLeB a c = true := by
  unfold remainLeB at *
  simp only [Bool.or_eq_true, Bool.and_eq_true, decide_eq_true_eq] at *
  rcases h1 with h1 | ⟨h1e, h1g⟩ <;> rcases h2 with h2 | ⟨h2e, h2g⟩
  · left; exact lt_trans h2 h1
  · left; rw [← h2e]; exact h1
  · left; rw [h1e]; exact h2
  · right; exact ⟨h1e.trans h2e, le_trans h1g h2g⟩

/-- Membership under stable insertion. -/
theorem mem_insertSplit (s u : Split) :
    ∀ l : List Split, u ∈ insertSplit s l ↔ u = s ∨ u ∈ l := by
  intro l
  induction l with
  | nil => simp [insertSplit]
  | cons t rest ih =>
    unfold insertSplit
    by_cases h : remainLeB s t
    · rw [if_pos h]
      simp only [List.mem_cons]
    · rw [if_neg h]
      simp only [List.mem_cons, ih]
      tauto

/-- Stable insertion preserves sortedness with respect to the key
comparison. -/
theorem pairwise_insertSplit (s : Split) :
    ∀ l : List Split, l.Pairwise (fun a b => remainLeB a b = true) →
      (insertSplit s l).Pairwise (fun a b => remainLeB a b = true) := by
  intro l
  induction l with
  | nil => intro _; simp [insertSplit]
  | cons t rest ih =>
    intro hl
    rcases List.pairwise_cons.mp hl with ⟨ht, hrest⟩
    unfold insertSplit
    by_cases h : remainLeB s t
    · rw [if_pos h]
      apply List.pairwise_cons.mpr
      refine ⟨?_, hl⟩
      intro u hu
      rcases List.mem_cons.mp hu with rfl | hmem
      · exact h
      · exact remainLeB_trans h (ht u hmem)
    · rw [if_neg h]
      have hts : remainLeB t s = true := by
        rcases remainLeB_total s t with hst | hts
        · exact absurd hst h
        · exact hts
      apply List.pairwise_cons.mpr
      refine ⟨?_, ih hrest⟩
      intro u hu
      rcases (mem_insertSplit s u rest).mp hu with rfl | hmem
      · exact hts
      · exact ht u hmem

/-- The modelled sort is sorted with respect to the key comparison. -/
theorem sortRemaining_pairwise (l : List Split) :
    (sortRemaining l).Pairwise (fun a b => remainLeB a b = true) := by
  induction l with
  | nil => simp [sortRemaining]
  | cons s rest ih => exact pairwise_insertSplit s _ ih

/-- Stable insertion is a permutation of consing. -/
theorem insertSplit_perm (s : Split) :
    ∀ l : List Split, (insertSplit s l).Perm (s :: l) := by
  intro l
  induction l with
  | nil => simp [insertSplit]
  | cons t rest ih =>
    unfold insertSplit
    by_cases h : remainLeB s t
    · rw [if_pos h]
    · rw [if_neg h]
      exact (ih.cons t).trans (List.Perm.swap s t rest)

/-- The modelled sort permutes its input. -/
theorem sortRemaining_perm (l : List Split) : (sortRemaining l).Perm l := by
  induction l with
  | nil => simp [sortRemaining]
  | cons s rest ih =>
    exact (insertSplit_perm s _).trans (ih.cons s)

/-- Per-currency sums distribute over append. -/
theorem sumC_append (a b : List Split) (c : String) :
    sumC (a ++ b) c = sumC a c + sumC b c := by
  simp [sumC, sumValues, List.filter_append]

/-- A list all of whose splits have currency `c` contributes its full value
sum to currency `c`. -/
theorem sumC_eq_sumValues (l : List Split) (c : String)
    (h : ∀ s ∈ l, s.currency = c) : sumC l c = sumValues l := by
  unfold sumC
  congr 1
  apply List.filter_eq_self.mpr
  intro s hs
  simp [h s hs]

/-- A list none of whose splits have currency `c` contributes nothing to
currency `c`. -/
theorem sumC_eq_zero (l : List Split) (c : String)
    (h : ∀ s ∈ l, s.currency ≠ c) : sumC l c = 0 := by
  unfold sumC
  have : l.filter (fun s => s.currency == c) = [] := by
    apply List.filter_eq_nil_iff.mpr
    intro s hs
    simp [h s hs]
  rw [this]
  simp [sumValues]

/-- Membership is preserved by adding a currency. -/
theorem mem_addCurrency_of_mem (acc : List String) (c c' : String)
    (h : c ∈ acc) : c ∈ addCurrency acc c' := by
  unfold addCurrency
  split
  · exact h
  · exact List.mem_append_left _ h

/-- The added currency is a member afterwards. -/
theorem self_mem_addCurrency (acc : List String) (c : String) :
    c ∈ addCurrency acc c := by
  unfold addCurrency
  split
  · assumption
  · exact List.mem_append_right _ (List.mem_singleton.mpr rfl)

/-- Members after adding a currency were members before or are the added
one. -/
theorem mem_of_mem_addCurrency (acc : List String) (c c' : String)
    (h : c ∈ addCurrency acc c') : c ∈ acc ∨ c = c' := by
  unfold addCurrency at h
  split at h
  · exact Or.inl h
  · rcases List.mem_append.mp h with h1 | h1
    · exact Or.inl h1
    · exact Or.inr (List.mem_singleton.mp h1)

/-- Adding a currency preserves distinctness. -/
theorem nodup_addCurrency (acc : List String) (c : String)
    (h : acc.Nodup) : (addCurrency acc c).Nodup := by
  unfold addCurrency
  split
  · exact h
  · refine List.nodup_append.mpr ⟨h, List.nodup_singleton c, ?_⟩
    intro a ha hb
    rw [List.mem_singleton.mp hb] at ha
    exact absurd ha (by assumption)

/-- Accumulator members survive the currency fold. -/
theorem mem_currFold_of_mem_acc :
    ∀ (l : List Split) (acc : List String) (c : String), c ∈ acc →
      c ∈ l.foldl (fun a u => addCurrency a u.currency) acc := by
  intro l
  induction l with
  | nil => intro acc c h; simpa using h
  | cons t rest ih =>
    intro acc c h
    exact ih _ c (mem_addCurrency_of_mem _ _ _ h)

/-- Every split's currency appears in the currency fold. -/
theorem currency_mem_currFold :
    ∀ (l : List Split) (acc : List String) (s : Split), s ∈ l →
      s.currency ∈ l.foldl (fun a u => addCurrency a u.currency) acc := by
  intro l
  induction l with
  | nil => intro acc s h; simp at h
  | cons t rest ih =>
    intro acc s h
    rcases List.mem_cons.mp h with rfl | hmem
    · exact mem_currFold_of_mem_acc rest _ _ (self_mem_addCurrency _ _)
    · exact ih _ s hmem

/-- Every member of the currency fold is an accumulator member or the
currency of some split. -/
theorem mem_currFold_sound :
    ∀ (l : List Split) (acc : List String) (c : String),
      c ∈ l.foldl (fun a u => addCurrency a u.currency) acc →
      c ∈ acc ∨ ∃ s ∈ l, s.currency = c := by
  intro l
  induction l with
  | nil => intro acc c h; exact Or.inl (by simpa using h)
  | cons t rest ih =>
    intro acc c h
    rcases ih _ c h with hacc | ⟨s, hs, hcur⟩
    · rcases mem_of_mem_addCurrency _ _ _ hacc with h1 | h1
      · exact Or.inl h1
      · exact Or.inr ⟨t, List.mem_cons_self t rest, h1.symm⟩
    · exact Or.inr ⟨s, List.mem_cons_of_mem _ hs, hcur⟩

/-- The currency fold preserves distinctness. -/
theorem nodup_currFold :
    ∀ (l : List Split) (acc : List String), acc.Nodup →
      (l.foldl (fun a u => addCurrency a u.currency) acc).Nodup := by
  intro l
  induction l with
  | nil => intro acc h; simpa using h
  | cons t rest ih =>
    intro acc h
    exact ih _ (nodup_addCurrency _ _ h)

/-- The extracted currency list is duplicate-free, mirroring Python dict
keys. -/
theorem currenciesOf_nodup (l : List Split) : (currenciesOf l).Nodup :=
  nodup_currFold l [] (by simp)

/-- Every split's currency is among the extracted currencies. -/
theorem currency_mem_currenciesOf {l : List Split} {s : Split}
    (h : s ∈ l) : s.currency ∈ currenciesOf l :=
  currency_mem_currFold l [] s h

/-- Every extracted currency belongs to some split. -/
theorem mem_currenciesOf_sound {l : List Split} {c : String}
    (h : c ∈ currenciesOf l) : ∃ s ∈ l, s.currency = c := by
  rcases mem_currFold_sound l [] c h with habs | hgood
  · simp at habs
  · exact hgood

/-- Soundness of a successful balancing loop over a duplicate-free currency
list: every added counter-split carries a listed currency whose selected
balance was non-zero, and for every listed currency the selected balance
plus the added counter-splits' contribution is exactly zero. -/
theorem balanceLoop_ok_spec (selected remaining : List Split) :
    ∀ (cs : List String) (extras : List Split), cs.Nodup →
      balanceLoop selected remaining cs = Except.ok extras →
      (∀ s ∈ extras, s.currency ∈ cs ∧ sumC selected s.currency ≠ 0) ∧
      (∀ c ∈ cs, sumC selected c + sumC extras c = 0) := by
  intro cs
  induction cs with
  | nil =>
    intro extras _ h
    simp only [balanceLoop] at h
    injection h with h
    subst h
    constructor
    · intro s hs; simp at hs
    · intro c hc; simp at hc
  | cons c cs ih =>
    intro extras hnd h
    have hcnot : c ∉ cs := (List.nodup_cons.mp hnd).1
    have hnd' : cs.Nodup := (List.nodup_cons.mp hnd).2
    unfold balanceLoop at h
    by_cases hbal : sumC selected c = 0
    · rw [if_pos hbal] at h
      obtain ⟨h1, h2⟩ := ih extras hnd' h
      refine ⟨?_, ?_⟩
      · intro s hs
        exact ⟨List.mem_cons_of_mem _ (h1 s hs).1, (h1 s hs).2⟩
      · intro c' hc'
        rcases List.mem_cons.mp hc' with rfl | hmem
        · have hz : sumC extras c' = 0 := by
            apply sumC_eq_zero
            intro s hs hcur
            exact hcnot (hcur ▸ (h1 s hs).1)
          rw [hbal, hz, add_zero]
        · exact h2 c' hmem
    · rw [if_neg hbal] at h
      cases hfind : _find_balancing_subset
          (remaining.filter (fun s => s.currency == c))
          (-(sumC selected c)) with
      | none => rw [hfind] at h; exact absurd h (by simp)
      | some subset =>
        rw [hfind] at h
        cases hrec : balanceLoop selected remaining cs with
        | error e => rw [hrec] at h; simp [Except.map] at h
        | ok rest =>
          rw [hrec] at h
          simp only [Except.map] at h
          injection h with h
          subst h
          obtain ⟨h1, h2⟩ := ih rest hnd' hrec
          have hsound := find_balancing_sound _ _ _ hfind
          have hsubc : ∀ s ∈ subset, s.currency = c := by
            intro s hsmem
            have hmemf := hsound.1.subset hsmem
            simp only [List.mem_filter, beq_iff_eq] at hmemf
            exact hmemf.2
          have hsubsum : sumValues subset = -(sumC selected c) :=
            hsound.2.1
          refine ⟨?_, ?_⟩
          · intro s hs
            rcases List.mem_append.mp hs with hmem | hmem
            · refine ⟨?_, ?_⟩
              · rw [hsubc s hmem]; exact List.mem_cons_self c cs
              · rw [hsubc s hmem]; exact hbal
            · exact ⟨List.mem_cons_of_mem _ (h1 s hmem).1, (h1 s hmem).2⟩
          · intro c' hc'
            rcases List.mem_cons.mp hc' with rfl | hmem
            · rw [sumC_append]
              have hz : sumC rest c' = 0 := by
                apply sumC_eq_zero
                intro s hs hcur
                exact hcnot (hcur ▸ (h1 s hs).1)
              rw [sumC_eq_sumValues subset c' hsubc, hsubsum, hz, add_zero]
              ring
            · rw [sumC_append]
              have hzs : sumC subset c' = 0 := by
                apply sumC_eq_zero
                intro s hs
                rw [hsubc s hs]
                intro hcc
                exact hcnot (hcc ▸ hmem)
              rw [hzs, zero_add]
              exact h2 c' hmem

/-- A failing balancing loop fails on a listed currency whose selected
balance is non-zero and for which the subset search found nothing. -/
theorem balanceLoop_error_spec (selected remaining : List Split) :
    ∀ (cs : List String) (c : String),
      balanceLoop selected remaining cs = Except.error c →
      c ∈ cs ∧ sumC selected c ≠ 0 ∧
      _find_balancing_subset (remaining.filter (fun s => s.currency == c))
        (-(sumC selected c)) = none := by
  intro cs
  induction cs with
  | nil => intro c h; simp [balanceLoop] at h
  | cons c0 cs ih =>
    intro c h
    unfold balanceLoop at h
    by_cases hbal : sumC selected c0 = 0
    · rw [if_pos hbal] at h
      obtain ⟨h1, h2, h3⟩ := ih c h
      exact ⟨List.mem_cons_of_mem _ h1, h2, h3⟩
    · rw [if_neg hbal] at h
      cases hfind : _find_balancing_subset
          (remaining.filter (fun s => s.currency == c0))
          (-(sumC selected c0)) with
      | none =>
        rw [hfind] at h
        injection h with h
        subst h
        exact ⟨List.mem_cons_self _ _, hbal, hfind⟩
      | some subset =>
        rw [hfind] at h
        cases hrec : balanceLoop selected remaining cs with
        | error e =>
          rw [hrec] at h
          simp only [Except.map] at h
          injection h with h
          subst h
          obtain ⟨h1, h2, h3⟩ := ih e hrec
          exact ⟨List.mem_cons_of_mem _ h1, h2, h3⟩
        | ok rest => rw [hrec] at h; simp [Except.map] at h

/-- If some listed currency has a non-zero selected balance and an
unsolvable subset problem, the balancing loop fails. -/
theorem balanceLoop_error_of_failure (selected remaining : List Split) :
    ∀ (cs : List String) (c : String), c ∈ cs → sumC selected c ≠ 0 →
      _find_balancing_subset (remaining.filter (fun s => s.currency == c))
        (-(sumC selected c)) = none →
      ∃ c', balanceLoop selected remaining cs = Except.error c' := by
  intro cs
  induction cs with
  | nil => intro c h; simp at h
  | cons c0 cs ih =>
    intro c hc hbal hfind
    rcases List.mem_cons.mp hc with rfl | hmem
    · refine ⟨c, ?_⟩
      unfold balanceLoop
      rw [if_neg hbal, hfind]
    · unfold balanceLoop
      by_cases hb0 : sumC selected c0 = 0
      · rw [if_pos hb0]
        exact ih c hmem hbal hfind
      · rw [if_neg hb0]
        cases hfind0 : _find_balancing_subset
            (remaining.filter (fun s => s.currency == c0))
            (-(sumC selected c0)) with
        | none => exact ⟨c0, rfl⟩
        | some subset =>
          obtain ⟨c', hc'⟩ := ih c hmem hbal hfind
          rw [hc']
          exact ⟨c', rfl⟩

/-- C1: whenever the full-transaction fallback is not triggered (no warning
is produced), the returned selection contains every matching split, and
for every currency represented among the returned splits the exact-decimal
sum of their signed values is zero. -/
theorem claim_C1_balanced_selection
    (all_splits : List Split) (matching : List String) (signed : Bool)
    (hok : (_select_balanced_splits all_splits matching signed).2 = none) :
    (∀ s ∈ all_splits, matching.contains s.guid = true →
        s ∈ (_select_balanced_splits all_splits matching signed).1) ∧
    (∀ s ∈ (_select_balanced_splits all_splits matching signed).1,
        sumC (_select_balanced_splits all_splits matching signed).1
          s.currency = 0) := by
  cases hloop : balanceLoop (selectedOf all_splits matching)
      (remainingOf all_splits matching)
      (currenciesOf (selectedOf all_splits matching)) with
  | error c =>
    exfalso
    simp [_select_balanced_splits, hloop] at hok
  | ok extras =>
    have hres : (_select_balanced_splits all_splits matching signed).1
        = selectedOf all_splits matching ++ extras := by
      simp [_select_balanced_splits, hloop]
    obtain ⟨h1, h2⟩ := balanceLoop_ok_spec _ _ _ extras
      (currenciesOf_nodup _) hloop
    rw [hres]
    constructor
    · intro s hs hm
      apply List.mem_append_left
      unfold selectedOf
      exact List.mem_filter.mpr ⟨hs, hm⟩
    · intro s hs
      have hcur : s.currency
          ∈ currenciesOf (selectedOf all_splits matching) := by
        rcases List.mem_append.mp hs with hmem | hmem
        · exact currency_mem_currenciesOf hmem
        · exact (h1 s hmem).1
      rw [sumC_append]
      exact h2 s.currency hcur

/-- Witness for C1 at the spec's end-to-end example: postings +78.25 and
−78.25 EUR, only the first matching; the fallback does not trigger and the
conclusions hold. -/
theorem claim_C1_balanced_selection_witness :
    ((_select_balanced_splits
        [⟨"groceries", (7825 : ℚ) / 100, "EUR"⟩,
         ⟨"checking", -((7825 : ℚ) / 100), "EUR"⟩]
        ["groceries"] true).2 = none) ∧
    ((∀ s ∈ [(⟨"groceries", (7825 : ℚ) / 100, "EUR"⟩ : Split),
         ⟨"checking", -((7825 : ℚ) / 100), "EUR"⟩],
        (["groceries"] : List String).contains s.guid = true →
        s ∈ (_select_balanced_splits
          [⟨"groceries", (7825 : ℚ) / 100, "EUR"⟩,
           ⟨"checking", -((7825 : ℚ) / 100), "EUR"⟩]
          ["groceries"] true).1) ∧
     (∀ s ∈ (_select_balanced_splits
          [⟨"groceries", (7825 : ℚ) / 100, "EUR"⟩,
           ⟨"checking", -((7825 : ℚ) / 100), "EUR"⟩]
          ["groceries"] true).1,
        sumC (_select_balanced_splits
          [⟨"groceries", (7825 : ℚ) / 100, "EUR"⟩,
           ⟨"checking", -((7825 : ℚ) / 100), "EUR"⟩]
          ["groceries"] true).1 s.currency = 0)) :=
  ⟨by decide,
   claim_C1_balanced_selection
     [⟨"groceries", (7825 : ℚ) / 100, "EUR"⟩,
      ⟨"checking", -((7825 : ℚ) / 100), "EUR"⟩]
     ["groceries"] true (by decide)⟩

/-- C2: a returned counter-subset for a currency with non-zero balance is a
subsequence of that currency's sorted remainder pool summing exactly to
the negated balance, of minimal cardinality among all such subsequences,
and is the first valid combination of its size in lexicographic index
order; the pool order is the remainder sorted by absolute value descending
then guid ascending; and currencies whose matching postings already sum to
zero contribute no counter-postings. -/
theorem claim_C2_minimal_lexicographic_counter_subset
    (all_splits : List Split) (matching : List String) (c : String)
    (out : List Split)
    (hbal : sumC (selectedOf all_splits matching) c ≠ 0)
    (hout : _find_balancing_subset (poolOf all_splits matching c)
        (targetOf all_splits matching c) = some out) :
    (out.Sublist (poolOf all_splits matching c) ∧
      sumValues out = targetOf all_splits matching c) ∧
    (∀ t, t.Sublist (poolOf all_splits matching c) →
        sumValues t = targetOf all_splits matching c →
        out.length ≤ t.length) ∧
    ((combosLex (poolOf all_splits matching c) out.length).find?
        (fun t => decide (sumValues t = targetOf all_splits matching c))
      = some out) ∧
    ((remainingOf all_splits matching).Perm
        (all_splits.filter (fun s => !(matching.contains s.guid))) ∧
      (remainingOf all_splits matching).Pairwise
        (fun a b => |b.value| < |a.value| ∨
          (|a.value| = |b.value| ∧ a.guid ≤ b.guid))) ∧
    (∀ extras,
        balanceLoop (selectedOf all_splits matching)
          (remainingOf all_splits matching)
          (currenciesOf (selectedOf all_splits matching))
          = Except.ok extras →
        ∀ s ∈ extras,
          sumC (selectedOf all_splits matching) s.currency ≠ 0) := by
  have hsound := find_balancing_sound _ _ out hout
  obtain ⟨k, hk1, hk2, h3, h4⟩ := trySizesUpTo_eq_some
    (targetOf all_splits matching c) (poolOf all_splits matching c)
    (poolOf all_splits matching c).length out hout
  have hklen : out.length = k := by
    rw [backtrack_eq_findFirst] at h3
    have hmem := List.mem_of_find?_eq_some h3
    rw [mem_combosLex] at hmem
    exact hmem.2
  refine ⟨⟨hsound.1, hsound.2.1⟩, ?_, ?_, ⟨sortRemaining_perm _, ?_⟩, ?_⟩
  · intro t htsub htsum
    by_contra hlt
    push_neg at hlt
    have htne : t ≠ [] := by
      intro hnil
      subst hnil
      rw [show sumValues ([] : List Split) = 0 from by simp [sumValues]]
        at htsum
      apply hbal
      have h0 : targetOf all_splits matching c = 0 := htsum.symm
      unfold targetOf at h0
      exact neg_eq_zero.mp h0
    have hlen1 : 1 ≤ t.length := List.length_pos.mpr htne
    have hnone := h4 t.length hlen1 (by omega)
    rw [backtrack_eq_findFirst] at hnone
    have hall := List.find?_eq_none.mp hnone
    have hmem : t ∈ combosLex (poolOf all_splits matching c) t.length :=
      (mem_combosLex _ _ t).mpr ⟨htsub, rfl⟩
    have := hall t hmem
    simp [htsum] at this
  · rw [backtrack_eq_findFirst] at h3
    rw [hklen]
    have hfun : (fun t => decide
          ((0 : ℚ) + sumValues t = targetOf all_splits matching c))
        = (fun t => decide (sumValues t = targetOf all_splits matching c))
        := by
      funext t
      rw [zero_add]
    rw [← hfun]
    exact h3
  · have hp := sortRemaining_pairwise
      (all_splits.filter (fun s => !(matching.contains s.guid)))
    apply List.Pairwise.imp ?_ hp
    intro a b hab
    unfold remainLeB at hab
    simp only [Bool.or_eq_true, Bool.and_eq_true, decide_eq_true_eq] at hab
    rw [absQ_eq_abs, absQ_eq_abs] at hab
    exact hab
  · intro extras hloop s hs
    exact ((balanceLoop_ok_spec _ _ _ extras
      (currenciesOf_nodup _) hloop).1 s hs).2

/-- Witness for C2 at the spec's minimality example: matching +100 EUR,
remainder −60, −40, −30 EUR; the chosen subset is the two-element
combination −60, −40. -/
theorem claim_C2_minimal_lexicographic_counter_subset_witness :
    (sumC (selectedOf
        [⟨"m", 100, "EUR"⟩, ⟨"r1", -60, "EUR"⟩, ⟨"r2", -40, "EUR"⟩,
         ⟨"r3", -30, "EUR"⟩] ["m"]) "EUR" ≠ 0) ∧
    (_find_balancing_subset
        (poolOf [⟨"m", 100, "EUR"⟩, ⟨"r1", -60, "EUR"⟩,
          ⟨"r2", -40, "EUR"⟩, ⟨"r3", -30, "EUR"⟩] ["m"] "EUR")
        (targetOf [⟨"m", 100, "EUR"⟩, ⟨"r1", -60, "EUR"⟩,
          ⟨"r2", -40, "EUR"⟩, ⟨"r3", -30, "EUR"⟩] ["m"] "EUR")
      = some [⟨"r1", -60, "EUR"⟩, ⟨"r2", -40, "EUR"⟩]) ∧
    (([⟨"r1", -60, "EUR"⟩, ⟨"r2", -40, "EUR"⟩] : List Split).Sublist
        (poolOf [⟨"m", 100, "EUR"⟩, ⟨"r1", -60, "EUR"⟩,
          ⟨"r2", -40, "EUR"⟩, ⟨"r3", -30, "EUR"⟩] ["m"] "EUR") ∧
      sumValues [⟨"r1", -60, "EUR"⟩, ⟨"r2", -40, "EUR"⟩]
        = targetOf [⟨"m", 100, "EUR"⟩, ⟨"r1", -60, "EUR"⟩,
          ⟨"r2", -40, "EUR"⟩, ⟨"r3", -30, "EUR"⟩] ["m"] "EUR") :=
  ⟨by decide, by decide,
   (claim_C2_minimal_lexicographic_counter_subset
     [⟨"m", 100, "EUR"⟩, ⟨"r1", -60, "EUR"⟩, ⟨"r2", -40, "EUR"⟩,
      ⟨"r3", -30, "EUR"⟩] ["m"] "EUR"
     [⟨"r1", -60, "EUR"⟩, ⟨"r2", -40, "EUR"⟩]
     (by decide) (by decide)).1⟩

/-- C3: when some currency of the matching postings has a non-zero balance
and no subset of its remainder pool sums to the required target, the
selector returns the full, unmodified posting list together with a warning
naming a failing currency; it never returns a partial selection. -/
theorem claim_C3_unbalanceable_fallback
    (all_splits : List Split) (matching : List String) (signed : Bool)
    (hex : ∃ c ∈ currenciesOf (selectedOf all_splits matching),
        sumC (selectedOf all_splits matching) c ≠ 0 ∧
        ∀ t ∈ (poolOf all_splits matching c).sublists,
          sumValues t ≠ targetOf all_splits matching c) :
    (_select_balanced_splits all_splits matching signed).1 = all_splits ∧
    ∃ c', (_select_balanced_splits all_splits matching signed).2
        = some (warningMsg c') ∧
      c' ∈ currenciesOf (selectedOf all_splits matching) ∧
      sumC (selectedOf all_splits matching) c' ≠ 0 ∧
      ∀ t ∈ (poolOf all_splits matching c').sublists,
        sumValues t ≠ targetOf all_splits matching c' := by
  obtain ⟨c, hc, hbal, hnosub⟩ := hex
  have hfind : _find_balancing_subset (poolOf all_splits matching c)
      (targetOf all_splits matching c) = none := by
    cases hf : _find_balancing_subset (poolOf all_splits matching c)
        (targetOf all_splits matching c) with
    | none => rfl
    | some out =>
      exfalso
      have hs := find_balancing_sound _ _ _ hf
      exact hnosub out (List.mem_sublists.mpr hs.1) hs.2.1
  obtain ⟨c', hloop⟩ := balanceLoop_error_of_failure
    (selectedOf all_splits matching) (remainingOf all_splits matching)
    (currenciesOf (selectedOf all_splits matching)) c hc hbal hfind
  obtain ⟨hc', hbal', hfind'⟩ := balanceLoop_error_spec _ _ _ c' hloop
  constructor
  · simp [_select_balanced_splits, hloop]
  · refine ⟨c', by simp [_select_balanced_splits, hloop], hc', hbal', ?_⟩
    intro t ht htsum
    have hsub := List.mem_sublists.mp ht
    have htne : t ≠ [] := by
      intro hnil
      subst hnil
      rw [show sumValues ([] : List Split) = 0 from by simp [sumValues]]
        at htsum
      apply hbal'
      have h0 : targetOf all_splits matching c' = 0 := htsum.symm
      unfold targetOf at h0
      exact neg_eq_zero.mp h0
    exact find_balancing_complete _ _ t hsub htne htsum hfind'

/-- Witness for C3 at a concrete unbalanceable input: matching +100 EUR,
remainder −33 and −20 EUR; no subset reaches −100, so the full posting
list is returned. -/
theorem claim_C3_unbalanceable_fallback_witness :
    (∃ c ∈ currenciesOf (selectedOf
        [⟨"m", 100, "EUR"⟩, ⟨"x", -33, "EUR"⟩, ⟨"y", -20, "EUR"⟩] ["m"]),
      sumC (selectedOf
        [⟨"m", 100, "EUR"⟩, ⟨"x", -33, "EUR"⟩, ⟨"y", -20, "EUR"⟩] ["m"])
          c ≠ 0 ∧
      ∀ t ∈ (poolOf
          [⟨"m", 100, "EUR"⟩, ⟨"x", -33, "EUR"⟩, ⟨"y", -20, "EUR"⟩]
          ["m"] c).sublists,
        sumValues t ≠ targetOf
          [⟨"m", 100, "EUR"⟩, ⟨"x", -33, "EUR"⟩, ⟨"y", -20, "EUR"⟩]
          ["m"] c) ∧
    (_select_balanced_splits
        [⟨"m", 100, "EUR"⟩, ⟨"x", -33, "EUR"⟩, ⟨"y", -20, "EUR"⟩]
        ["m"] false).1
      = [⟨"m", 100, "EUR"⟩, ⟨"x", -33, "EUR"⟩, ⟨"y", -20, "EUR"⟩] :=
  ⟨by decide,
   (claim_C3_unbalanceable_fallback
     [⟨"m", 100, "EUR"⟩, ⟨"x", -33, "EUR"⟩, ⟨"y", -20, "EUR"⟩]
     ["m"] false (by decide)).1⟩
